import Mathlib

/-!
Verification development for the Dove Chaser aiming subsystem.

Shallow embedding of the Python sources:
  * `Config.py`   — configuration constants (here exact rationals/integers);
  * `Dove_object.py` — the `Dove` target tracker (NaN history slots are
    modelled as `Option` values, `none` standing for `np.nan`);
  * `angles_map.py`  — `ang_conv` (real-valued model of the float
    computation) and `alpha_beta_maps` (the dictionary builder, abstracted
    over the integer-valued conversion function it calls);
  * `Servo.py`    — `deg_to_duty`, `real_alpha_calc_balistics`,
    and the aim loops `Aim_side` / `Aim_pitch` / `final_pitch_aim`,
    modelled as deterministic functions over a tick-indexed view of the
    shared tracker state, emitting the servo commands and diagnostic
    prints they perform as an explicit event list.

Python floats are modelled as exact rationals (for the control loops and
the map builder, where every operation is exact at the granularity the
claims speak about) or as real numbers (for the trigonometric code).
-/

namespace Config

/-- Config.TIMEOUT_S: maximum time to wait for a dove in seconds. -/
def TIMEOUT_S : ℚ := 15

/-- Config.ROLL_TIME_AIM: time for rolling while aiming (0.1 s). -/
def ROLL_TIME_AIM : ℚ := 1/10

/-- Config.FRAME_TO_PITCH: history window size of the tracker. -/
def FRAME_TO_PITCH : ℕ := 10

/-- Config.TOP_AIM: upper aiming limit in pixels. -/
def TOP_AIM : ℚ := 160

/-- Config.BOTTOM_AIM: lower aiming limit in pixels. -/
def BOTTOM_AIM : ℚ := 200

/-- Config.LEFT_AIM: left aiming limit in pixels. -/
def LEFT_AIM : ℚ := 310

/-- Config.RIGHT_AIM: right aiming limit in pixels. -/
def RIGHT_AIM : ℚ := 330

/-- Config.MAX_DUTY: max duty cycle for the pitch servo. -/
def MAX_DUTY : ℚ := 15

/-- Config.MIN_DUTY: min duty cycle for the pitch servo. -/
def MIN_DUTY : ℚ := 0

/-- Config.RIGHT_DUTY: duty cycle moving the roll servo right (7.1). -/
def RIGHT_DUTY : ℚ := 71/10

/-- Config.STATIC_DUTY: duty cycle of the static roll position (7.5). -/
def STATIC_DUTY : ℚ := 15/2

/-- Config.LEFT_DUTY: duty cycle moving the roll servo left (7.9). -/
def LEFT_DUTY : ℚ := 79/10

/-- Config.PITCH_DEG_DOWN: default downward pitch angle. -/
def PITCH_DEG_DOWN : ℤ := 65

/-- Config.l1 (= 7.4): linkage geometry constant. -/
def l1 : ℚ := 37/5

/-- Config.l2 (= 1.64): linkage geometry constant. -/
def l2 : ℚ := 41/25

/-- Config.l3 (= 1.55): linkage geometry constant. -/
def l3 : ℚ := 31/20

/-- Config.l4 (= 7.9): linkage geometry constant. -/
def l4 : ℚ := 79/10

/-- Config.l5 (= 3.2): linkage geometry constant. -/
def l5 : ℚ := 16/5

/-- Config.lim (= 12): below this alpha the beta angle is negated. -/
def lim : ℚ := 12

/-- Config.s_cal (= 90): calibration offset added to beta. -/
def s_cal : ℤ := 90

/-- Config.FOV_deg (= 16.7): camera field of view in degrees. -/
def FOV_deg : ℚ := 167/10

/-- Config.HEIGHT_PIXEL (= 360): frame height in pixels. -/
def HEIGHT_PIXEL : ℚ := 360

/-- Config.REAL_DOVE_HEIGHT (= 0.2 m): real-world dove height. -/
def REAL_DOVE_HEIGHT : ℚ := 1/5

/-- Config.GRAVITY_CONSTANT (= 9.81). -/
def GRAVITY_CONSTANT : ℚ := 981/100

/-- Config.INITIAL_V (= 5.2): initial water velocity. -/
def INITIAL_V : ℚ := 26/5

end Config

/-! ## Dove_object.py -/

/-- Dove_object.s_median: pick the non-NaN entries of the array (`none`
models `np.nan`), return `none` when no entry remains, otherwise the
numpy median of the remaining entries (middle element of the sorted data
for odd length, average of the two middle elements for even length). -/
def insertSorted (x : ℚ) : List ℚ → List ℚ
  | [] => [x]
  | y :: ys => if x ≤ y then x :: y :: ys else y :: insertSorted x ys

/-- Insertion sort on rationals, used to model `np.median`'s sorting. -/
def sortQ (l : List ℚ) : List ℚ := l.foldr insertSorted []

/-- The numpy median of a (nonempty) list of values: middle element of
the sorted data, or the average of the two middle elements. -/
def npMedian (l : List ℚ) : ℚ :=
  let s := sortQ l
  let n := s.length
  if n % 2 = 1 then s.getD (n / 2) 0
  else (s.getD (n / 2 - 1) 0 + s.getD (n / 2) 0) / 2

/-- Dove_object.s_median: median of an array ignoring NaN (`none`)
values; `none` when the array contains only NaNs. -/
def s_median (arr : List (Option ℚ)) : Option ℚ :=
  let filtered_data := arr.filterMap id
  if filtered_data = [] then none
  else some (npMedian filtered_data)

/-- Dove_object.Dove: the tracker state. `y_center` and `height` are the
two circular history buffers (length `Config.FRAME_TO_PITCH`); a `none`
slot models the `np.nan` "missing" marker. -/
structure Dove where
  is_valid : Bool
  x_center : ℚ
  y_center : List (Option ℚ)
  height : List (Option ℚ)
  index : ℕ
  deriving DecidableEq, Repr

/-- Dove.__init__ with its default arguments: invalid, x_center 0, both
history buffers all-NaN, write index 0. -/
def Dove.init : Dove :=
  { is_valid := false
    x_center := 0
    y_center := List.replicate Config.FRAME_TO_PITCH none
    height := List.replicate Config.FRAME_TO_PITCH none
    index := 0 }

/-- Dove.update_dove: on an invalid frame write NaN into both histories
at the current index and leave `x_center` alone; on a valid frame
overwrite `x_center` and write the sample into both histories.  Either
way the write index advances modulo the window size. -/
def Dove.update_dove (d : Dove) (is_valid : Bool) (x_center y_center height : ℚ) : Dove :=
  if is_valid then
    { d with
      is_valid := true
      x_center := x_center
      y_center := d.y_center.set d.index (some y_center)
      height := d.height.set d.index (some height)
      index := (d.index + 1) % Config.FRAME_TO_PITCH }
  else
    { d with
      is_valid := false
      y_center := d.y_center.set d.index none
      height := d.height.set d.index none
      index := (d.index + 1) % Config.FRAME_TO_PITCH }

/-- Dove.is_dove: the validity flag. -/
def Dove.is_dove (d : Dove) : Bool := d.is_valid

/-- Dove.get_center: x position together with the NaN-ignoring median of
the y history. -/
def Dove.get_center (d : Dove) : ℚ × Option ℚ := (d.x_center, s_median d.y_center)

/-- Dove.get_height: NaN-ignoring median of the height history. -/
def Dove.get_height (d : Dove) : Option ℚ := s_median d.height

/-- Apply a finite sequence of `update_dove` calls
(valid flag, x_center, y_center, height) to a tracker state. -/
def Dove.run (d : Dove) : List (Bool × ℚ × ℚ × ℚ) → Dove
  | [] => d
  | u :: us => (d.update_dove u.1 u.2.1 u.2.2.1 u.2.2.2).run us

/-! ## angles_map.py: the map builder

`alpha_beta_maps` iterates `ang_conv` over the integer alphas −16 … 45,
building the forward dictionary `alpha_to_beta_map` and the inverse
dictionary `beta_to_alpha_map`, then fills every missing integer beta
between the smallest and largest observed beta by linear interpolation.
The builder is embedded verbatim, abstracted over the integer-valued
conversion function `conv` it calls (the source calls `ang_conv`, whose
real-valued model is defined further below); every claim about the
builder is proved for an arbitrary `conv`, hence in particular for the
code's.  Dictionaries are modelled as functions `ℤ → Option _` (`none`
means the key is absent). -/

/-- The list of `n` consecutive integers starting at `lo`
(models Python `range` over integers). -/
def intsFrom (lo : ℤ) : ℕ → List ℤ
  | 0 => []
  | n + 1 => lo :: intsFrom (lo + 1) n

/-- `range(-16, 46)`: the alphas iterated by `alpha_beta_maps`. -/
def alphaRange : List ℤ := intsFrom (-16) 62

/-- Update one key of a dictionary modelled as `ℤ → Option α`. -/
def updFun {α : Type} (m : ℤ → Option α) (k : ℤ) (v : α) : ℤ → Option α :=
  fun j => if j = k then some v else m j

/-- One iteration of the first loop of `alpha_beta_maps`: record
`alpha_to_beta_map[alpha] = conv alpha` and append `alpha` to
`beta_to_alpha_map[conv alpha]` (creating the entry if absent). -/
def addPair (conv : ℤ → ℤ) (st : (ℤ → Option ℤ) × (ℤ → Option (List ℚ))) (alpha : ℤ) :
    (ℤ → Option ℤ) × (ℤ → Option (List ℚ)) :=
  let beta := conv alpha
  (updFun st.1 alpha beta,
   match st.2 beta with
   | some l => updFun st.2 beta (l ++ [(alpha : ℚ)])
   | none => updFun st.2 beta [(alpha : ℚ)])

/-- The first loop of `alpha_beta_maps`: populate both maps with direct
conversions for every alpha in `range(-16, 46)`. -/
def pass1 (conv : ℤ → ℤ) : (ℤ → Option ℤ) × (ℤ → Option (List ℚ)) :=
  alphaRange.foldl (addPair conv) (fun _ => none, fun _ => none)

/-- `min(beta_to_alpha_map.keys())` after the first loop: the keys are
exactly the betas hit by `conv` on the alpha range, so the minimum over
the (possibly repeating) image list equals the minimum over the keys. -/
def minKey (conv : ℤ → ℤ) : ℤ := (alphaRange.map conv).foldl min (conv (-16))

/-- `max(beta_to_alpha_map.keys())` after the first loop. -/
def maxKey (conv : ℤ → ℤ) : ℤ := (alphaRange.map conv).foldl max (conv (-16))

/-- `max(k for k in beta_to_alpha_map if k < beta)`: scanning downward
from `k`, the first present key is the largest key below the scan start;
the fuel reaches down to the smallest key, so the scan is exhaustive. -/
def findBelow (m : ℤ → Option (List ℚ)) : ℤ → ℕ → Option ℤ
  | _, 0 => none
  | k, n + 1 => if (m k).isSome then some k else findBelow m (k - 1) n

/-- `min(k for k in beta_to_alpha_map if k > beta)`, by upward scan. -/
def findAbove (m : ℤ → Option (List ℚ)) : ℤ → ℕ → Option ℤ
  | _, 0 => none
  | k, n + 1 => if (m k).isSome then some k else findAbove m (k + 1) n

/-- One iteration of the interpolation loop of `alpha_beta_maps`: if
`beta` is missing, find the nearest lower and higher keys of the current
dictionary, and store the weighted pointwise average of their alpha
lists (`zip` pairs the two lists index-for-index).  The fall-through
case models the (unreachable) situation in which one of Python's
`max`/`min` generator expressions would be empty. -/
def interpStep (minB maxB : ℤ) (m : ℤ → Option (List ℚ)) (beta : ℤ) : ℤ → Option (List ℚ) :=
  match m beta with
  | some _ => m
  | none =>
    match findBelow m (beta - 1) (beta - minB).toNat, findAbove m (beta + 1) (maxB - beta).toNat with
    | some lower_beta, some higher_beta =>
      let weight_lower : ℚ := ((higher_beta : ℚ) - (beta : ℚ)) / ((higher_beta : ℚ) - (lower_beta : ℚ))
      let weight_higher : ℚ := ((beta : ℚ) - (lower_beta : ℚ)) / ((higher_beta : ℚ) - (lower_beta : ℚ))
      let lower_alphas := (m lower_beta).getD []
      let higher_alphas := (m higher_beta).getD []
      updFun m beta
        (List.zipWith (fun alpha_low alpha_high =>
          weight_lower * alpha_low + weight_higher * alpha_high) lower_alphas higher_alphas)
    | _, _ => m

/-- The interpolation loop of `alpha_beta_maps`:
`for beta in range(min_beta, max_beta + 1)`. -/
def pass2 (minB maxB : ℤ) (m : ℤ → Option (List ℚ)) : ℤ → Option (List ℚ) :=
  (intsFrom minB (maxB + 1 - minB).toNat).foldl (interpStep minB maxB) m

/-- angles_map.alpha_beta_maps, abstracted over the conversion function
`conv` standing for `ang_conv`: the populated forward map together with
the inverse map after gap interpolation. -/
def alpha_beta_maps (conv : ℤ → ℤ) : (ℤ → Option ℤ) × (ℤ → Option (List ℚ)) :=
  let p := pass1 conv
  (p.1, pass2 (minKey conv) (maxKey conv) p.2)

/-- The direct ("real", non-interpolated) alpha list of a beta key: all
alphas of the range mapping to it, in iteration order.  This is the
closed form of the inverse dictionary built by the first loop. -/
def directs (conv : ℤ → ℤ) (k : ℤ) : List ℚ :=
  (alphaRange.filter (fun a => conv a = k)).map (fun a : ℤ => (a : ℚ))

/-! ## angles_map.py: `ang_conv`, real-valued model

The float computation of `ang_conv` is modelled over the real numbers.
`discriminant ** 0.5` is `Real.sqrt` (the discriminant is clamped to be
nonnegative first, exactly as in the source), `math.radians x` is
`x * π / 180`, `math.degrees x` is `x * 180 / π`. -/

/-- The quadratic-root computation at the heart of `ang_conv`
(lines computing A, B, BS, C, D, E, F, the clamped discriminant and
`root`), written as a function of the cosine and sine of the alpha
angle.  This value is the argument handed to `math.acos`. -/
noncomputable def rootCS (c s : ℝ) : ℝ :=
  let A := ((Config.l2 : ℝ) - (Config.l5 : ℝ) * c) / (Config.l3 : ℝ)
  let B := -1 * ((Config.l1 : ℝ) + (Config.l5 : ℝ) * s) / (Config.l3 : ℝ)
  let BS := B ^ 2
  let C := ((Config.l4 : ℝ) / (Config.l3 : ℝ)) ^ 2 - 1
  let D := A ^ 2 + BS
  let E := A * (BS - C) / D
  let F := (0.25 * ((BS - C) ^ 2) - BS) / D
  let discriminant := E ^ 2 - 4 * F
  let clamped := if discriminant < 0 then 0 else discriminant
  (-E + Real.sqrt clamped) / 2

/-- The argument `ang_conv` passes to `math.acos` for a given
`alpha_deg`: `rootCS` applied to cosine and sine of the radian angle. -/
noncomputable def acosArg (alpha_deg : ℝ) : ℝ :=
  rootCS (Real.cos (alpha_deg * Real.pi / 180)) (Real.sin (alpha_deg * Real.pi / 180))

/-- angles_map.ang_conv: convert an alpha angle (degrees) to the beta
servo angle, negating below `Config.lim` and adding the calibration
offset.  (`Real.arccos` is total; the claim that the argument lies in
[−1, 1] — where Python's `math.acos` is defined — is proved below.) -/
noncomputable def ang_conv (alpha_deg : ℝ) : ℤ :=
  let angle_radians := Real.arccos (acosArg alpha_deg)
  let angle_degrees := angle_radians * 180 / Real.pi
  let adjusted := if alpha_deg < (Config.lim : ℝ) then angle_degrees * (-1) else angle_degrees
  round adjusted + Config.s_cal

/-! ## Servo.py -/

/-- Servo.deg_to_duty: convert an angle in degrees to a duty cycle. -/
def deg_to_duty (deg : ℚ) : ℚ :=
  deg * (Config.MAX_DUTY - Config.MIN_DUTY) / 180 + Config.MIN_DUTY

/-- Python `min` over a (nonempty) list of floats, as used by
`real_alpha_calc_balistics` on the alpha-candidate list.  (Junk value 0
on the empty list, where Python would raise.) -/
noncomputable def listMin : List ℝ → ℝ
  | [] => 0
  | [a] => a
  | a :: b :: rest => min a (listMin (b :: rest))

/-- The ballistic parameter `E = GRAVITY_CONSTANT * D / INITIAL_V ** 2`
of `real_alpha_calc_balistics`, where
`D = (REAL_DOVE_HEIGHT * HEIGHT_PIXEL) / (2 * OB * tan(FOV / 2))`. -/
noncomputable def balE (OB : ℝ) : ℝ :=
  let FOV := (Config.FOV_deg : ℝ) * Real.pi / 180
  let D := ((Config.REAL_DOVE_HEIGHT : ℝ) * (Config.HEIGHT_PIXEL : ℝ)) / (2 * OB * Real.tan (FOV / 2))
  ((Config.GRAVITY_CONSTANT : ℝ) * D) / ((Config.INITIAL_V : ℝ) ^ 2)

/-- The ballistic discriminant
`dis = 1.0 - 2.0 * E * sin(alpha) - (E * cos(alpha)) ** 2`
(`alpha` in radians). -/
noncomputable def balDis (alpha OB : ℝ) : ℝ :=
  1.0 - 2.0 * balE OB * Real.sin alpha - (balE OB * Real.cos alpha) ^ 2

/-- The solved corrected angle, in degrees:
`degrees(atan((1 - dis ** 0.5) / (E * cos(alpha))))`. -/
noncomputable def balAngle (alpha OB : ℝ) : ℝ :=
  Real.arctan ((1 - Real.sqrt (balDis alpha OB)) / (balE OB * Real.cos alpha)) * 180 / Real.pi

/-- Servo.real_alpha_calc_balistics: corrected pitch angle from the
naive angle candidates (the code takes their `min`) and the apparent
target height `OB` in pixels; `none` models the `float('nan')` failure
sentinel of both abort branches. -/
noncomputable def real_alpha_calc_balistics (alpha_deg : List ℝ) (OB : ℝ) : Option ℝ :=
  if balDis (listMin alpha_deg * Real.pi / 180) OB < 0 then none
  else if 45 < balAngle (listMin alpha_deg * Real.pi / 180) OB then none
  else some (balAngle (listMin alpha_deg * Real.pi / 180) OB)

/-- The externally observable actions of the aim routines: roll- and
pitch-servo duty commands (`ChangeDutyCycle`) and the diagnostic prints
("Dove gone!", "Aim Failed!", "not in pitch range"). -/
inductive Ev where
  | roll (duty : ℚ)
  | pitch (duty : ℚ)
  | msgDoveGone
  | msgAimFailed
  | msgNotInPitchRange
  deriving DecidableEq, Repr

/-- The tracker state as seen by the aim loops at a given tick (one tick
= one `time.sleep(Config.ROLL_TIME_AIM)`): the validity flag and the
`get_center()` pair.  The perception thread mutates the tracker
concurrently, so the loops read a time-indexed view `ℕ → DoveView`. -/
structure DoveView where
  valid : Bool
  x : ℚ
  y : Option ℚ

/-- The re-acquisition grace loop shared by `Aim_side` and `Aim_pitch`:
`while undetected_to > 0: if dove.is_dove(): break; sleep; undetected_to
-= ROLL_TIME_AIM`.  Returns the tick at which it stops (the dove
reappeared or the grace budget ran out). -/
def waitLoop (env : ℕ → DoveView) (t : ℕ) (undetected_to : ℚ) : ℕ :=
  if h : 0 < undetected_to then
    if (env t).valid then t
    else waitLoop env (t + 1) (undetected_to - Config.ROLL_TIME_AIM)
  else t
termination_by ⌈(10:ℚ) * undetected_to⌉.toNat
decreasing_by
  have heq : (10:ℚ) * (undetected_to - Config.ROLL_TIME_AIM) = 10 * undetected_to - 1 := by
    rw [Config.ROLL_TIME_AIM]; ring
  have h1 : (0:ℤ) < ⌈(10:ℚ) * undetected_to⌉ :=
    Int.ceil_pos.mpr (by nlinarith)
  rw [heq, Int.ceil_sub_one]
  omega

/-- The `while` loop of Servo.Aim_side: while the last read x position
is outside the dead-band and timeout budget remains, run one bang-bang
roll pulse (after the re-acquisition grace handling), re-read the
center, and decrement the timeout by the pulse duration.  Returns the
boolean result, the events issued, and the final tick. -/
def aimSideLoop (env : ℕ → DoveView) (x_center : ℚ) (t : ℕ) (timeout : ℚ) :
    Bool × List Ev × ℕ :=
  if h : (x_center < Config.LEFT_AIM ∨ Config.RIGHT_AIM < x_center) ∧ 0 < timeout then
    let t1 := if (env t).valid then t else waitLoop env t 5
    if (env t1).valid = false then (false, [Ev.msgDoveGone], t1)
    else
      let duty := if x_center < Config.LEFT_AIM then Config.RIGHT_DUTY else Config.LEFT_DUTY
      let t2 := t1 + 1
      match aimSideLoop env (env t2).x t2 (timeout - Config.ROLL_TIME_AIM) with
      | (r, evs, tf) => (r, Ev.roll duty :: Ev.roll Config.STATIC_DUTY :: evs, tf)
  else
    if timeout ≤ 0 then (false, [Ev.msgAimFailed], t)
    else (true, [], t)
termination_by ⌈(10:ℚ) * timeout⌉.toNat
decreasing_by
  have heq : (10:ℚ) * (timeout - Config.ROLL_TIME_AIM) = 10 * timeout - 1 := by
    rw [Config.ROLL_TIME_AIM]; ring
  have h1 : (0:ℤ) < ⌈(10:ℚ) * timeout⌉ :=
    Int.ceil_pos.mpr (by nlinarith [h.2])
  rw [heq, Int.ceil_sub_one]
  omega

/-- Servo.Aim_side: read the center once, then run the loop with the
full `TIMEOUT_S` budget. -/
def Aim_side (env : ℕ → DoveView) : Bool × List Ev × ℕ :=
  aimSideLoop env (env 0).x 0 Config.TIMEOUT_S

/-- The `while` condition of Servo.Aim_pitch:
`(y_center is None) or (y_center < TOP_AIM) or (y_center > BOTTOM_AIM)`. -/
def misaligned (y_center : Option ℚ) : Bool :=
  match y_center with
  | none => true
  | some yv => decide (yv < Config.TOP_AIM) || decide (Config.BOTTOM_AIM < yv)

/-- The `while` loop of Servo.Aim_pitch: bang-bang stepping of the
commanded pitch angle by ±1 degree per tick, with the domain check
against `alpha_to_beta_map[-16]` and `alpha_to_beta_map[45]` before
commanding.  Result: Python return value, final `pitch_deg`, events,
final tick.  The overall `none` models the `TypeError` Python raises
when the body compares `y_center = None` against an int (reachable when
the dove reappears during the grace period while the last read y is
still `None`). -/
def aimPitchLoop (env : ℕ → DoveView) (a2bm : ℤ → ℤ) (pitch_deg : ℤ) (y_center : Option ℚ)
    (t : ℕ) (timeout : ℚ) : Option (Bool × ℤ × List Ev × ℕ) :=
  if h : misaligned y_center = true ∧ 0 < timeout then
    let t1 := if (env t).valid then t else waitLoop env t 5
    if (env t1).valid = false then some (false, pitch_deg, [Ev.msgDoveGone], t1)
    else
      match y_center with
      | none => none
      | some yv =>
        let pitch' := pitch_deg + (if yv < Config.TOP_AIM then 1 else -1)
        if pitch' < a2bm (-16) ∨ a2bm 45 < pitch' then
          some (false, pitch', [Ev.msgNotInPitchRange], t1)
        else
          let t2 := t1 + 1
          match aimPitchLoop env a2bm pitch' (env t2).y t2 (timeout - Config.ROLL_TIME_AIM) with
          | none => none
          | some (r, p, evs, tf) =>
            some (r, p, Ev.pitch (deg_to_duty (pitch' : ℚ)) :: evs, tf)
  else
    if timeout ≤ 0 then some (false, pitch_deg, [Ev.msgAimFailed], t)
    else some (true, pitch_deg, [], t)
termination_by ⌈(10:ℚ) * timeout⌉.toNat
decreasing_by
  have heq : (10:ℚ) * (timeout - Config.ROLL_TIME_AIM) = 10 * timeout - 1 := by
    rw [Config.ROLL_TIME_AIM]; ring
  have h1 : (0:ℤ) < ⌈(10:ℚ) * timeout⌉ :=
    Int.ceil_pos.mpr (by nlinarith [h.2])
  rw [heq, Int.ceil_sub_one]
  omega

/-- Servo.Aim_pitch: read the center once, then run the loop with the
full `TIMEOUT_S` budget. -/
def Aim_pitch (env : ℕ → DoveView) (a2bm : ℤ → ℤ) (pitch_deg : ℤ) :
    Option (Bool × ℤ × List Ev × ℕ) :=
  aimPitchLoop env a2bm pitch_deg (env 0).y 0 Config.TIMEOUT_S

/-- Servo.final_pitch_aim: look up the naive alpha candidates of the
current (integer) pitch, ask the ballistic corrector, and on success
command the corrected mechanical angle.  Result components: the Python
return value (`some false` for `return False`; `none` for the implicit
`None` the function returns when control falls off its end — the
function has no `return True`), the new `pitch_deg`, and the events.
`round` of the integers `pitch_deg` and `alpha_to_beta_map[...]` is the
identity and is dropped. -/
noncomputable def final_pitch_aim (a2bm : ℤ → ℤ) (b2am : ℤ → List ℝ) (pitch_deg : ℤ)
    (height : ℝ) : Option Bool × ℤ × List Ev :=
  let naive_alpha := b2am pitch_deg
  match real_alpha_calc_balistics naive_alpha height with
  | none => (some false, pitch_deg, [])
  | some real_alpha =>
    let newPitch := a2bm (round real_alpha)
    (none, newPitch, [Ev.pitch (deg_to_duty (newPitch : ℚ))])

/-! ## Proof-support definitions -/

/-- A dictionary entry as stored by the first loop: absent when no alpha
maps there, otherwise the (nonempty) list itself. -/
def listToOpt (l : List ℚ) : Option (List ℚ) :=
  if l = [] then none else some l

/-- The linear-weighted pointwise average of the alpha lists of two beta
keys `lo < beta < hi` of the map `g`, with weights
`(hi − beta)/(hi − lo)` and `(beta − lo)/(hi − lo)`, lists paired
index-for-index.  With `g` the un-interpolated map and `lo`/`hi` the
nearest real keys, this is the value the specification prescribes for a
missing `beta`. -/
def specInterp (g : ℤ → Option (List ℚ)) (lo hi beta : ℤ) : List ℚ :=
  List.zipWith (fun a b =>
      (((hi : ℚ) - (beta : ℚ)) / ((hi : ℚ) - (lo : ℚ))) * a +
        (((beta : ℚ) - (lo : ℚ)) / ((hi : ℚ) - (lo : ℚ))) * b)
    ((g lo).getD []) ((g hi).getD [])

/-- The prescribed entry of a missing beta: `specInterp` between the
nearest real key below and the nearest real key above (junk `[]` when a
neighbour is missing, which cannot happen between the extreme keys). -/
def specList (g : ℤ → Option (List ℚ)) (minB maxB beta : ℤ) : List ℚ :=
  match findBelow g (beta - 1) (beta - minB).toNat,
      findAbove g (beta + 1) (maxB - beta).toNat with
  | some lo, some hi => specInterp g lo hi beta
  | _, _ => []

/-- Invariant of the interpolation loop, with `g` the map produced by
the first loop and `p` the next beta to be processed: real keys keep
their direct lists, processed missing betas hold their prescribed
interpolation, unprocessed missing betas are still absent. -/
def inv2 (g m : ℤ → Option (List ℚ)) (minB maxB p : ℤ) : Prop :=
  (∀ k l, g k = some l → m k = some l) ∧
  (∀ k, g k = none → minB ≤ k → k < p → m k = some (specList g minB maxB k)) ∧
  (∀ k, g k = none → (k < minB ∨ p ≤ k) → m k = none)

/-- Invariant of reachable tracker states: both history buffers have the
configured window length, the write index is in range, and a valid
state has at least one real sample in each history (the slot written by
the valid update that set the flag). -/
def doveInv (d : Dove) : Prop :=
  d.y_center.length = Config.FRAME_TO_PITCH ∧
  d.height.length = Config.FRAME_TO_PITCH ∧
  d.index < Config.FRAME_TO_PITCH ∧
  (d.is_valid = true → (∃ v ∈ d.y_center, v.isSome) ∧ ∃ v ∈ d.height, v.isSome)

/-! ## Theorems -/

/-- C2: for every naive aim angle `alpha` and every apparent target size
`OB > 0`, `real_alpha_calc_balistics` returns the NaN sentinel (`none`)
exactly when the ballistic discriminant
`1 − 2·E·sin(alpha) − (E·cos(alpha))²` is negative or the solved
corrected angle exceeds 45 degrees; in every other case it returns a
finite angle (a real number) of at most 45 degrees.  The embedding is a
total function: no exception is raised on either branch. -/
theorem claim_C2 (alpha OB : ℝ) (hOB : 0 < OB) :
    (real_alpha_calc_balistics [alpha] OB = none ↔
      (balDis (alpha * Real.pi / 180) OB < 0 ∨
        (0 ≤ balDis (alpha * Real.pi / 180) OB ∧
          45 < balAngle (alpha * Real.pi / 180) OB))) ∧
    ∀ r, real_alpha_calc_balistics [alpha] OB = some r → r ≤ 45 := by
  have hmin : listMin [alpha] = alpha := rfl
  constructor
  · unfold real_alpha_calc_balistics
    rw [hmin]
    split_ifs with h1 h2
    · exact iff_of_true rfl (Or.inl h1)
    · exact iff_of_true rfl (Or.inr ⟨not_lt.mp h1, h2⟩)
    · refine iff_of_false (by simp) ?_
      push_neg
      exact ⟨not_lt.mp h1, fun _ => not_lt.mp h2⟩
  · intro r hr
    unfold real_alpha_calc_balistics at hr
    rw [hmin] at hr
    split_ifs at hr with h1 h2
    have h3 : balAngle (alpha * Real.pi / 180) OB = r := by
      simpa using hr
    exact h3 ▸ not_lt.mp h2

/-- Witness for C2 at the concrete input `alpha = 0`, `OB = 1`. -/
theorem claim_C2_witness :
    (real_alpha_calc_balistics [0] 1 = none ↔
      (balDis (0 * Real.pi / 180) 1 < 0 ∨
        (0 ≤ balDis (0 * Real.pi / 180) 1 ∧
          45 < balAngle (0 * Real.pi / 180) 1))) ∧
    ∀ r, real_alpha_calc_balistics [0] 1 = some r → r ≤ 45 :=
  claim_C2 0 1 (by norm_num)

/-- C7: `final_pitch_aim` returns `False` (`some false`) exactly when
the ballistic correction returns the NaN sentinel, with no retry, and on
the success path it commands the corrected mechanical angle — but its
Python return value on that path is the implicit `None` (`none` here),
never `True`: the function body has no `return True`, contradicting its
own docstring ("Returns: bool: True if successful, False otherwise")
and the claim that the caller receives a checkable success indicator. -/
theorem claim_C7 (a2bm : ℤ → ℤ) (b2am : ℤ → List ℝ) (pitch_deg : ℤ) (height : ℝ) :
    (final_pitch_aim a2bm b2am pitch_deg height).1 ≠ some true ∧
    ((final_pitch_aim a2bm b2am pitch_deg height).1 = some false ↔
      real_alpha_calc_balistics (b2am pitch_deg) height = none) ∧
    (final_pitch_aim a2bm b2am pitch_deg height).2 =
      (match real_alpha_calc_balistics (b2am pitch_deg) height with
        | none => (pitch_deg, [])
        | some real_alpha =>
          (a2bm (round real_alpha),
            [Ev.pitch (deg_to_duty ((a2bm (round real_alpha) : ℤ) : ℚ))])) := by
  unfold final_pitch_aim
  cases h : real_alpha_calc_balistics (b2am pitch_deg) height <;> simp [h]

/-- C6: an invalid-frame update leaves `x_center` unchanged, writes the
missing marker (NaN, here `none`) into both histories at the current
write index, and advances the write index by one modulo the window
size; a valid-frame update overwrites `x_center` with the given value.
(The hypotheses say the state is a well-formed tracker state: buffers of
the configured window length, write index in range.) -/
theorem claim_C6 (d : Dove) (x y h : ℚ)
    (hly : d.y_center.length = Config.FRAME_TO_PITCH)
    (hlh : d.height.length = Config.FRAME_TO_PITCH)
    (hidx : d.index < Config.FRAME_TO_PITCH) :
    (d.update_dove false x y h).x_center = d.x_center ∧
    ((d.update_dove false x y h).y_center)[d.index]? = some none ∧
    ((d.update_dove false x y h).height)[d.index]? = some none ∧
    (d.update_dove false x y h).index = (d.index + 1) % Config.FRAME_TO_PITCH ∧
    (d.update_dove true x y h).x_center = x := by
  unfold Dove.update_dove
  refine ⟨rfl, ?_, ?_, rfl, rfl⟩
  · show ((d.y_center.set d.index none))[d.index]? = some none
    exact List.getElem?_set_eq_of_lt none (by omega)
  · show ((d.height.set d.index none))[d.index]? = some none
    exact List.getElem?_set_eq_of_lt none (by omega)

/-- Witness for C6 at the default tracker state. -/
theorem claim_C6_witness :
    (Dove.init.update_dove false 1 2 3).x_center = Dove.init.x_center ∧
    ((Dove.init.update_dove false 1 2 3).y_center)[Dove.init.index]? = some none ∧
    ((Dove.init.update_dove false 1 2 3).height)[Dove.init.index]? = some none ∧
    (Dove.init.update_dove false 1 2 3).index = (Dove.init.index + 1) % Config.FRAME_TO_PITCH ∧
    (Dove.init.update_dove true 1 2 3).x_center = 1 :=
  claim_C6 Dove.init 1 2 3 rfl rfl (by decide)

/-- Helper: the NaN-ignoring median is a real value as soon as one
buffer slot holds a real sample. -/
theorem s_median_isSome_of_mem {arr : List (Option ℚ)} {v : Option ℚ}
    (hv : v ∈ arr) (hs : v.isSome = true) : (s_median arr).isSome = true := by
  obtain ⟨a, rfl⟩ := Option.isSome_iff_exists.mp hs
  have ha : a ∈ arr.filterMap id := List.mem_filterMap.mpr ⟨some a, hv, rfl⟩
  unfold s_median
  rw [if_neg (List.ne_nil_of_mem ha)]
  rfl

/-- Helper: `doveInv` holds for the default-constructed tracker. -/
theorem doveInv_init : doveInv Dove.init := by
  refine ⟨rfl, rfl, by decide, ?_⟩
  intro h
  simp [Dove.init] at h

/-- Helper: `doveInv` is preserved by every `update_dove` call. -/
theorem doveInv_update (d : Dove) (inv : doveInv d) (b : Bool) (x y h : ℚ) :
    doveInv (d.update_dove b x y h) := by
  obtain ⟨h1, h2, h3, _⟩ := inv
  unfold Dove.update_dove
  cases b with
  | false =>
    refine ⟨by simpa using h1, by simpa using h2, ?_, ?_⟩
    · simpa using Nat.mod_lt (d.index + 1) (by norm_num [Config.FRAME_TO_PITCH])
    · intro hcontra
      simp at hcontra
  | true =>
    refine ⟨by simpa using h1, by simpa using h2, ?_, ?_⟩
    · simpa using Nat.mod_lt (d.index + 1) (by norm_num [Config.FRAME_TO_PITCH])
    · intro _
      have hylen : d.index < (d.y_center.set d.index (some y)).length := by
        rw [List.length_set]; omega
      have hhlen : d.index < (d.height.set d.index (some h)).length := by
        rw [List.length_set]; omega
      constructor
      · exact ⟨(d.y_center.set d.index (some y))[d.index], List.getElem_mem hylen,
          by rw [List.getElem_set_self hylen]; rfl⟩
      · exact ⟨(d.height.set d.index (some h))[d.index], List.getElem_mem hhlen,
          by rw [List.getElem_set_self hhlen]; rfl⟩

/-- Helper: `doveInv` is preserved by every finite update sequence. -/
theorem doveInv_run (us : List (Bool × ℚ × ℚ × ℚ)) :
    ∀ d : Dove, doveInv d → doveInv (d.run us) := by
  induction us with
  | nil => intro d hd; exact hd
  | cons u us ih =>
    intro d hd
    exact ih _ (doveInv_update d hd u.1 u.2.1 u.2.2.1 u.2.2.2)

/-- C10: starting from the default-constructed tracker and applying any
finite sequence of `update_dove` calls (valid-frame samples are exact
rationals here, hence finite/non-NaN), whenever `is_dove()` is true the
median component of `get_center()` and the value of `get_height()` are
real values, not `None`. -/
theorem claim_C10 (us : List (Bool × ℚ × ℚ × ℚ))
    (hvalid : (Dove.init.run us).is_dove = true) :
    ((Dove.init.run us).get_center.2).isSome = true ∧
    ((Dove.init.run us).get_height).isSome = true := by
  have inv := doveInv_run us Dove.init doveInv_init
  obtain ⟨⟨v, hv, hvs⟩, ⟨w, hw, hws⟩⟩ := inv.2.2.2 hvalid
  exact ⟨s_median_isSome_of_mem hv hvs, s_median_isSome_of_mem hw hws⟩

/-- Witness for C10: one valid update makes the tracker valid with a
real median and height. -/
theorem claim_C10_witness :
    ((Dove.init.run [(true, 50, 100, 5)]).get_center.2).isSome = true ∧
    ((Dove.init.run [(true, 50, 100, 5)]).get_height).isSome = true :=
  claim_C10 [(true, 50, 100, 5)] (by decide)

/-- C9: if the tracked x position is inside the dead-band
[LEFT_AIM, RIGHT_AIM] when `Aim_side` is called, the call returns
success immediately: no event is issued (in particular no roll command)
and no tick elapses, regardless of the presence flag and of the median y
(the horizontal check short-circuits before any wait). -/
theorem claim_C9 (env : ℕ → DoveView)
    (h1 : Config.LEFT_AIM ≤ (env 0).x) (h2 : (env 0).x ≤ Config.RIGHT_AIM) :
    Aim_side env = (true, [], 0) := by
  have hc : ¬(((env 0).x < Config.LEFT_AIM ∨ Config.RIGHT_AIM < (env 0).x) ∧
      (0:ℚ) < Config.TIMEOUT_S) := by
    rintro ⟨hor, -⟩
    rcases hor with hl | hr
    · linarith
    · linarith
  unfold Aim_side
  rw [aimSideLoop, dif_neg hc, if_neg (by norm_num [Config.TIMEOUT_S])]

/-- Witness for C9: a constant view with the target at x = 320 (inside
the dead-band), absent (`valid = false`) and with no median y. -/
theorem claim_C9_witness :
    Aim_side (fun _ => ⟨false, 320, none⟩) = (true, [], 0) :=
  claim_C9 (fun _ => ⟨false, 320, none⟩)
    (by norm_num [Config.LEFT_AIM]) (by norm_num [Config.RIGHT_AIM])

/-- Helper for C3: if the dove stays present and its x position stays
outside the dead-band, the `Aim_side` loop runs its body once per tick
until the timeout budget `n / 10` is exhausted, returning `False` after
exactly `n` ticks through the "Aim Failed!" exit and never through the
"Dove gone!" exit. -/
theorem aimSideLoop_timeout (env : ℕ → DoveView)
    (hv : ∀ t, (env t).valid = true)
    (hx : ∀ t, (env t).x < Config.LEFT_AIM ∨ Config.RIGHT_AIM < (env t).x) :
    ∀ (n t : ℕ) (x : ℚ), (x < Config.LEFT_AIM ∨ Config.RIGHT_AIM < x) →
      ∃ evs : List Ev, aimSideLoop env x t ((n : ℚ)/10) = (false, evs, t + n) ∧
        Ev.msgDoveGone ∉ evs ∧ Ev.msgAimFailed ∈ evs := by
  intro n
  induction n with
  | zero =>
    intro t x hxx
    refine ⟨[Ev.msgAimFailed], ?_, by simp, by simp⟩
    rw [aimSideLoop, dif_neg (by push_neg; intro _; norm_num), if_pos (by norm_num)]
    norm_num
  | succ n ih =>
    intro t x hxx
    have hpos : (0:ℚ) < ((n+1 : ℕ) : ℚ)/10 := by positivity
    have harith : ((n+1 : ℕ) : ℚ)/10 - Config.ROLL_TIME_AIM = ((n : ℕ) : ℚ)/10 := by
      rw [Config.ROLL_TIME_AIM]; push_cast; ring
    rw [aimSideLoop, dif_pos ⟨hxx, hpos⟩]
    simp only [hv, if_true, eq_self_iff_true, if_pos, Bool.true_eq_false, if_false, harith]
    obtain ⟨evs, heq, hn, hy⟩ := ih (t+1) ((env (t+1)).x) (hx (t+1))
    rw [heq]
    refine ⟨Ev.roll (if x < Config.LEFT_AIM then Config.RIGHT_DUTY else Config.LEFT_DUTY) ::
      Ev.roll Config.STATIC_DUTY :: evs, ?_, ?_, ?_⟩
    · simp
      omega
    · simp [hn]
    · simp [hy]

/-- C3: if the dove stays continuously present but its x position never
enters the dead-band, `Aim_side` returns failure exactly when the
cumulative simulated time reaches the timeout budget — after precisely
150 pulse iterations (one tick each), with
150 · ROLL_TIME_AIM = TIMEOUT_S — and never before (the unique return
happens at tick 150, through the timeout exit "Aim Failed!", never
through the lost-target exit). -/
theorem claim_C3 (env : ℕ → DoveView)
    (hv : ∀ t, (env t).valid = true)
    (hx : ∀ t, (env t).x < Config.LEFT_AIM ∨ Config.RIGHT_AIM < (env t).x) :
    ∃ evs : List Ev, Aim_side env = (false, evs, 150) ∧
      Ev.msgDoveGone ∉ evs ∧ Ev.msgAimFailed ∈ evs ∧
      (150 : ℚ) * Config.ROLL_TIME_AIM = Config.TIMEOUT_S := by
  have h150 : Config.TIMEOUT_S = ((150 : ℕ) : ℚ)/10 := by norm_num [Config.TIMEOUT_S]
  obtain ⟨evs, heq, hn, hy⟩ := aimSideLoop_timeout env hv hx 150 0 ((env 0).x) (hx 0)
  refine ⟨evs, ?_, hn, hy, by norm_num [Config.ROLL_TIME_AIM, Config.TIMEOUT_S]⟩
  unfold Aim_side
  rw [h150]
  simpa using heq

/-- Witness for C3: a constant view with the dove present at x = 0. -/
theorem claim_C3_witness :
    ∃ evs : List Ev, Aim_side (fun _ => ⟨true, 0, none⟩) = (false, evs, 150) ∧
      Ev.msgDoveGone ∉ evs ∧ Ev.msgAimFailed ∈ evs ∧
      (150 : ℚ) * Config.ROLL_TIME_AIM = Config.TIMEOUT_S :=
  claim_C3 (fun _ => ⟨true, 0, none⟩) (fun _ => rfl)
    (fun _ => Or.inl (by norm_num [Config.LEFT_AIM]))

/-- C8: one iteration of the `Aim_pitch` loop with the dove present and
the last read y misaligned changes the commanded pitch by exactly one
degree — incremented when y is above TOP_AIM (y < TOP_AIM in pixel
coordinates), decremented otherwise.  If the stepped angle leaves the
valid beta domain [alpha_to_beta_map[-16], alpha_to_beta_map[45]], the
call returns the hard failure immediately: result `False`, only the
"not in pitch range" diagnostic (distinct from the timeout's
"Aim Failed!"), no servo command for the out-of-range angle, and no
tick consumed.  Otherwise the stepped angle is commanded
(`ChangeDutyCycle(deg_to_duty(pitch))`) and the loop continues one tick
later with the timeout reduced by the tick duration. -/
theorem claim_C8 (env : ℕ → DoveView) (a2bm : ℤ → ℤ) (pitch_deg : ℤ) (y : ℚ)
    (t : ℕ) (timeout : ℚ)
    (hval : (env t).valid = true)
    (hy : y < Config.TOP_AIM ∨ Config.BOTTOM_AIM < y)
    (ht : 0 < timeout) :
    (pitch_deg + (if y < Config.TOP_AIM then 1 else -1) < a2bm (-16) ∨
        a2bm 45 < pitch_deg + (if y < Config.TOP_AIM then 1 else -1) →
      aimPitchLoop env a2bm pitch_deg (some y) t timeout =
        some (false, pitch_deg + (if y < Config.TOP_AIM then 1 else -1),
          [Ev.msgNotInPitchRange], t)) ∧
    (a2bm (-16) ≤ pitch_deg + (if y < Config.TOP_AIM then 1 else -1) ∧
        pitch_deg + (if y < Config.TOP_AIM then 1 else -1) ≤ a2bm 45 →
      aimPitchLoop env a2bm pitch_deg (some y) t timeout =
        Option.map (fun r =>
          (r.1, r.2.1,
            Ev.pitch (deg_to_duty
              ((pitch_deg + (if y < Config.TOP_AIM then 1 else -1) : ℤ) : ℚ)) :: r.2.2.1,
            r.2.2.2))
          (aimPitchLoop env a2bm (pitch_deg + (if y < Config.TOP_AIM then 1 else -1))
            ((env (t + 1)).y) (t + 1) (timeout - Config.ROLL_TIME_AIM))) := by
  have hmis : misaligned (some y) = true := by
    unfold misaligned
    rcases hy with hcase | hcase <;> simp [hcase]
  constructor
  · intro hout
    rw [aimPitchLoop, dif_pos ⟨hmis, ht⟩]
    simp only [hval, if_true, eq_self_iff_true, if_pos, Bool.true_eq_false, if_false]
    rw [if_pos hout]
  · intro hin
    rw [aimPitchLoop, dif_pos ⟨hmis, ht⟩]
    simp only [hval, if_true, eq_self_iff_true, if_pos, Bool.true_eq_false, if_false]
    rw [if_neg (by push_neg; exact hin)]
    cases hrec : aimPitchLoop env a2bm (pitch_deg + (if y < Config.TOP_AIM then 1 else -1))
        ((env (t + 1)).y) (t + 1) (timeout - Config.ROLL_TIME_AIM) with
    | none => simp
    | some r =>
      obtain ⟨r1, r2, r3, r4⟩ := r
      simp

/-- Witness for C8: present dove, y = 100 (above the window), domain
map collapsed to the single beta 0, so the stepped pitch 6 falls out of
range and the hard failure is returned without a command. -/
theorem claim_C8_witness :
    aimPitchLoop (fun _ => ⟨true, 320, some 100⟩) (fun _ => 0) 5 (some 100) 0 15 =
      some (false, 5 + (if (100:ℚ) < Config.TOP_AIM then 1 else -1),
        [Ev.msgNotInPitchRange], 0) :=
  (claim_C8 (fun _ => ⟨true, 320, some 100⟩) (fun _ => 0) 5 100 0 15 rfl
    (Or.inl (by norm_num [Config.TOP_AIM])) (by norm_num)).1
    (Or.inr (by norm_num [Config.TOP_AIM]))

/-- Helper: membership in an integer range list. -/
theorem mem_intsFrom : ∀ (n : ℕ) (lo a : ℤ), a ∈ intsFrom lo n ↔ lo ≤ a ∧ a < lo + n := by
  intro n
  induction n with
  | zero =>
    intro lo a
    simp only [intsFrom, List.not_mem_nil, false_iff]
    omega
  | succ n ih =>
    intro lo a
    simp only [intsFrom, List.mem_cons, ih]
    omega

/-- Helper: closed form of the forward map built by the first loop. -/
theorem foldl_addPair_fst (conv : ℤ → ℤ) :
    ∀ (L : List ℤ) (st : (ℤ → Option ℤ) × (ℤ → Option (List ℚ))) (α : ℤ),
      (L.foldl (addPair conv) st).1 α = if α ∈ L then some (conv α) else st.1 α := by
  intro L
  induction L with
  | nil => intro st α; simp
  | cons a L ih =>
    intro st α
    rw [List.foldl_cons, ih]
    by_cases hL : α ∈ L
    · simp [hL]
    · by_cases ha : α = a
      · subst ha; simp [hL, addPair, updFun]
      · simp [hL, ha, addPair, updFun]

/-- Helper: closed form of the inverse map built by the first loop — the
entry of key `k` collects, in iteration order, every processed alpha
that converts to `k` (absent while that collection is empty). -/
theorem foldl_addPair_snd (conv : ℤ → ℤ) :
    ∀ (L : List ℤ) (st : (ℤ → Option ℤ) × (ℤ → Option (List ℚ))) (f : ℤ → List ℚ),
      (∀ j, st.2 j = listToOpt (f j)) →
      ∀ k, (L.foldl (addPair conv) st).2 k =
        listToOpt (f k ++ (L.filter (fun a => conv a = k)).map (fun a : ℤ => (a : ℚ))) := by
  intro L
  induction L with
  | nil =>
    intro st f hst k
    simpa using hst k
  | cons a L ih =>
    intro st f hst k
    rw [List.foldl_cons]
    have hstep : ∀ j, (addPair conv st a).2 j =
        listToOpt (f j ++ if conv a = j then [(a : ℚ)] else []) := by
      intro j
      show (match st.2 (conv a) with
        | some l => updFun st.2 (conv a) (l ++ [(a : ℚ)])
        | none => updFun st.2 (conv a) [(a : ℚ)]) j =
          listToOpt (f j ++ if conv a = j then [(a : ℚ)] else [])
      rw [hst (conv a)]
      by_cases hfa : f (conv a) = []
      · rw [listToOpt, if_pos hfa]
        by_cases hj : j = conv a
        · subst hj
          simp [updFun, listToOpt, hfa]
        · have hj2 : ¬conv a = j := fun hh => hj hh.symm
          simp [updFun, hj, hj2, hst j]
      · rw [listToOpt, if_neg hfa]
        by_cases hj : j = conv a
        · subst hj
          simp [updFun, listToOpt, hfa]
        · have hj2 : ¬conv a = j := fun hh => hj hh.symm
          simp [updFun, hj, hj2, hst j]
    have := ih (addPair conv st a) (fun j => f j ++ if conv a = j then [(a : ℚ)] else []) hstep k
    rw [this, List.filter_cons]
    by_cases hak : conv a = k
    · simp [hak, List.append_assoc]
    · simp [hak]

/-- Helper: the first loop's inverse map, in closed form. -/
theorem pass1_snd (conv : ℤ → ℤ) (k : ℤ) :
    (pass1 conv).2 k = listToOpt (directs conv k) := by
  have h := foldl_addPair_snd conv alphaRange (fun _ => none, fun _ => none)
    (fun _ => []) (fun _ => by simp [listToOpt]) k
  simpa [pass1, directs] using h

/-- Helper: the first loop's forward map, in closed form. -/
theorem pass1_fst (conv : ℤ → ℤ) (α : ℤ) (hα : α ∈ alphaRange) :
    (pass1 conv).1 α = some (conv α) := by
  rw [pass1, foldl_addPair_fst conv alphaRange _ α, if_pos hα]

/-- Helper: one interpolation step never touches a key that is already
present. -/
theorem interpStep_preserves {m : ℤ → Option (List ℚ)} {k : ℤ} {l : List ℚ}
    (minB maxB β : ℤ) (hk : m k = some l) : interpStep minB maxB m β k = some l := by
  unfold interpStep
  cases hmb : m β with
  | some x => exact hk
  | none =>
    have hne : k ≠ β := fun h => by rw [h, hmb] at hk; cases hk
    cases findBelow m (β - 1) (β - minB).toNat with
    | none => exact hk
    | some lo =>
      cases findAbove m (β + 1) (maxB - β).toNat with
      | none => exact hk
      | some hi => simpa [updFun, hne] using hk

/-- Helper: the whole interpolation loop never touches present keys. -/
theorem foldl_interpStep_preserves (minB maxB : ℤ) :
    ∀ (L : List ℤ) (m : ℤ → Option (List ℚ)) (k : ℤ) (l : List ℚ),
      m k = some l → (L.foldl (interpStep minB maxB) m) k = some l := by
  intro L
  induction L with
  | nil => intro m k l hk; exact hk
  | cons β L ih =>
    intro m k l hk
    exact ih _ k l (interpStep_preserves minB maxB β hk)

/-- Helper: a processed alpha appears in the direct list of its beta. -/
theorem mem_directs (conv : ℤ → ℤ) (α : ℤ) (hα : α ∈ alphaRange) :
    (α : ℚ) ∈ directs conv (conv α) := by
  unfold directs
  rw [List.mem_map]
  refine ⟨α, ?_, rfl⟩
  rw [List.mem_filter]
  refine ⟨hα, by simp⟩

/-- C1: for every integer alpha in [−16, 45] and every conversion
function (in particular the code's `ang_conv`), the maps returned by
`alpha_beta_maps` satisfy: the forward map is defined at alpha with
value `conv alpha`, and alpha is a member of the inverse map's list at
that beta (round-trip membership) — interpolation never disturbs the
direct entries. -/
theorem claim_C1 (conv : ℤ → ℤ) (α : ℤ) (h1 : -16 ≤ α) (h2 : α ≤ 45) :
    (alpha_beta_maps conv).1 α = some (conv α) ∧
    ∃ l, (alpha_beta_maps conv).2 (conv α) = some l ∧ (α : ℚ) ∈ l := by
  have hmem : α ∈ alphaRange := (mem_intsFrom 62 (-16) α).mpr ⟨h1, by omega⟩
  constructor
  · show (pass1 conv).1 α = some (conv α)
    exact pass1_fst conv α hmem
  · have hmd : (α : ℚ) ∈ directs conv (conv α) := mem_directs conv α hmem
    have hsome : (pass1 conv).2 (conv α) = some (directs conv (conv α)) := by
      rw [pass1_snd, listToOpt, if_neg (List.ne_nil_of_mem hmd)]
    refine ⟨directs conv (conv α), ?_, hmd⟩
    show pass2 (minKey conv) (maxKey conv) (pass1 conv).2 (conv α) = _
    exact foldl_interpStep_preserves _ _ _ _ _ _ hsome

/-- Witness for C1 with the doubling conversion at alpha = 0. -/
theorem claim_C1_witness :
    (alpha_beta_maps (fun a => 2 * a)).1 0 = some 0 ∧
    ∃ l, (alpha_beta_maps (fun a => 2 * a)).2 0 = some l ∧ ((0 : ℤ) : ℚ) ∈ l :=
  claim_C1 (fun a => 2 * a) 0 (by norm_num) (by norm_num)

/-- Helper: zipWith composed with itself on a shared right list. -/
theorem zipWith_zipWith_same {α β γ δ : Type} (f : γ → β → δ) (g : α → β → γ) :
    ∀ (L : List α) (H : List β),
      List.zipWith f (List.zipWith g L H) H = List.zipWith (fun a b => f (g a b) b) L H := by
  intro L
  induction L with
  | nil => intro H; simp
  | cons a L ih =>
    intro H
    cases H with
    | nil => simp
    | cons b H => simp [ih]

/-- Helper: zipWith of two nonempty lists is nonempty. -/
theorem zipWith_ne_nil {α β γ : Type} (f : α → β → γ) {L : List α} {H : List β}
    (hL : L ≠ []) (hH : H ≠ []) : List.zipWith f L H ≠ [] := by
  cases L with
  | nil => exact absurd rfl hL
  | cons a L =>
    cases H with
    | nil => exact absurd rfl hH
    | cons b H => simp

/-- Helper: a left fold of `min` is bounded by its initial value. -/
theorem foldl_min_le_init : ∀ (l : List ℤ) (init : ℤ), l.foldl min init ≤ init := by
  intro l
  induction l with
  | nil => intro init; exact le_refl _
  | cons a l ih =>
    intro init
    exact le_trans (ih (min init a)) (min_le_left _ _)

/-- Helper: a left fold of `min` is bounded by every list element. -/
theorem foldl_min_le_mem : ∀ (l : List ℤ) (init x : ℤ), x ∈ l → l.foldl min init ≤ x := by
  intro l
  induction l with
  | nil => intro init x hx; cases hx
  | cons a l ih =>
    intro init x hx
    rcases List.mem_cons.mp hx with rfl | hx
    · exact le_trans (foldl_min_le_init l (min init x)) (min_le_right _ _)
    · exact ih (min init a) x hx

/-- Helper: a left fold of `min` is the initial value or a list element. -/
theorem foldl_min_mem : ∀ (l : List ℤ) (init : ℤ),
    l.foldl min init = init ∨ l.foldl min init ∈ l := by
  intro l
  induction l with
  | nil => intro init; exact Or.inl rfl
  | cons a l ih =>
    intro init
    rcases ih (min init a) with h | h
    · rcases min_choice init a with hm | hm
      · exact Or.inl (by rw [List.foldl_cons, h, hm])
      · exact Or.inr (by rw [List.foldl_cons, h, hm]; exact List.mem_cons_self a l)
    · exact Or.inr (List.mem_cons_of_mem a h)

/-- Helper: a left fold of `max` dominates its initial value. -/
theorem le_foldl_max_init : ∀ (l : List ℤ) (init : ℤ), init ≤ l.foldl max init := by
  intro l
  induction l with
  | nil => intro init; exact le_refl _
  | cons a l ih =>
    intro init
    exact le_trans (le_max_left _ _) (ih (max init a))

/-- Helper: a left fold of `max` dominates every list element. -/
theorem le_foldl_max_mem : ∀ (l : List ℤ) (init x : ℤ), x ∈ l → x ≤ l.foldl max init := by
  intro l
  induction l with
  | nil => intro init x hx; cases hx
  | cons a l ih =>
    intro init x hx
    rcases List.mem_cons.mp hx with rfl | hx
    · exact le_trans (le_max_right _ _) (le_foldl_max_init l (max init x))
    · exact ih (max init a) x hx

/-- Helper: a left fold of `max` is the initial value or a list element. -/
theorem foldl_max_mem : ∀ (l : List ℤ) (init : ℤ),
    l.foldl max init = init ∨ l.foldl max init ∈ l := by
  intro l
  induction l with
  | nil => intro init; exact Or.inl rfl
  | cons a l ih =>
    intro init
    rcases ih (max init a) with h | h
    · rcases max_choice init a with hm | hm
      · exact Or.inl (by rw [List.foldl_cons, h, hm])
      · exact Or.inr (by rw [List.foldl_cons, h, hm]; exact List.mem_cons_self a l)
    · exact Or.inr (List.mem_cons_of_mem a h)

/-- Helper: an upward scan stops at its start when the key is present. -/
theorem findAbove_hit {m : ℤ → Option (List ℚ)} {k : ℤ} (fuel : ℕ)
    (h : (m k).isSome = true) (hf : fuel ≠ 0) : findAbove m k fuel = some k := by
  cases fuel with
  | zero => exact absurd rfl hf
  | succ n => simp [findAbove, h]

/-- Helper: an upward scan skips an absent key. -/
theorem findAbove_skip {m : ℤ → Option (List ℚ)} {k : ℤ} (fuel : ℕ)
    (h : m k = none) : findAbove m k (fuel + 1) = findAbove m (k + 1) fuel := by
  simp [findAbove, h]

/-- Helper: a downward scan stops at its start when the key is present. -/
theorem findBelow_hit {m : ℤ → Option (List ℚ)} {k : ℤ} (fuel : ℕ)
    (h : (m k).isSome = true) (hf : fuel ≠ 0) : findBelow m k fuel = some k := by
  cases fuel with
  | zero => exact absurd rfl hf
  | succ n => simp [findBelow, h]

/-- Helper: a downward scan skips an absent key. -/
theorem findBelow_skip {m : ℤ → Option (List ℚ)} {k : ℤ} (fuel : ℕ)
    (h : m k = none) : findBelow m k (fuel + 1) = findBelow m (k - 1) fuel := by
  simp [findBelow, h]

/-- Helper: upward scans agree on maps whose key-presence agrees over
the scanned range. -/
theorem findAbove_congr {m₁ m₂ : ℤ → Option (List ℚ)} :
    ∀ (fuel : ℕ) (k : ℤ),
      (∀ j, k ≤ j → j < k + fuel → (m₁ j).isSome = (m₂ j).isSome) →
      findAbove m₁ k fuel = findAbove m₂ k fuel := by
  intro fuel
  induction fuel with
  | zero => intro k _; rfl
  | succ n ih =>
    intro k hagree
    have hk : (m₁ k).isSome = (m₂ k).isSome := hagree k (le_refl k) (by omega)
    unfold findAbove
    rw [hk]
    by_cases h : (m₂ k).isSome = true
    · simp [h]
    · simp only [h, if_false]
      exact ih (k + 1) (fun j hj1 hj2 => hagree j (by omega) (by omega))

/-- Helper: an upward scan succeeds when some key in range is present. -/
theorem findAbove_exists {m : ℤ → Option (List ℚ)} :
    ∀ (fuel : ℕ) (k q : ℤ), k ≤ q → q < k + fuel → (m q).isSome = true →
      ∃ r, findAbove m k fuel = some r := by
  intro fuel
  induction fuel with
  | zero => intro k q h1 h2 _; omega
  | succ n ih =>
    intro k q h1 h2 hq
    by_cases hk : (m k).isSome = true
    · exact ⟨k, findAbove_hit _ hk (by omega)⟩
    · have hkq : k ≠ q := fun h => hk (h ▸ hq)
      rw [findAbove_skip n (by
        cases hmk : m k with
        | none => rfl
        | some v => rw [hmk] at hk; exact absurd rfl hk)]
      exact ih (k + 1) q (by omega) (by omega) hq

/-- Helper: a downward scan succeeds when some key in range is present. -/
theorem findBelow_exists {m : ℤ → Option (List ℚ)} :
    ∀ (fuel : ℕ) (k q : ℤ), q ≤ k → k - fuel < q → (m q).isSome = true →
      ∃ r, findBelow m k fuel = some r := by
  intro fuel
  induction fuel with
  | zero => intro k q h1 h2 _; omega
  | succ n ih =>
    intro k q h1 h2 hq
    by_cases hk : (m k).isSome = true
    · exact ⟨k, findBelow_hit _ hk (by omega)⟩
    · have hkq : k ≠ q := fun h => hk (h ▸ hq)
      rw [findBelow_skip n (by
        cases hmk : m k with
        | none => rfl
        | some v => rw [hmk] at hk; exact absurd rfl hk)]
      exact ih (k - 1) q (by omega) (by omega) hq

/-- Helper: a successful upward scan returns a present key at or after
its start. -/
theorem findAbove_some_props {m : ℤ → Option (List ℚ)} :
    ∀ (fuel : ℕ) (k r : ℤ), findAbove m k fuel = some r →
      k ≤ r ∧ (m r).isSome = true := by
  intro fuel
  induction fuel with
  | zero => intro k r h; cases h
  | succ n ih =>
    intro k r h
    unfold findAbove at h
    by_cases hk : (m k).isSome = true
    · rw [if_pos hk] at h
      cases h
      exact ⟨le_refl _, hk⟩
    · rw [if_neg hk] at h
      obtain ⟨h1, h2⟩ := ih (k + 1) r h
      exact ⟨by omega, h2⟩

/-- Helper: a successful downward scan returns a present key at or
before its start. -/
theorem findBelow_some_props {m : ℤ → Option (List ℚ)} :
    ∀ (fuel : ℕ) (k r : ℤ), findBelow m k fuel = some r →
      r ≤ k ∧ (m r).isSome = true := by
  intro fuel
  induction fuel with
  | zero => intro k r h; cases h
  | succ n ih =>
    intro k r h
    unfold findBelow at h
    by_cases hk : (m k).isSome = true
    · rw [if_pos hk] at h
      cases h
      exact ⟨le_refl _, hk⟩
    · rw [if_neg hk] at h
      obtain ⟨h1, h2⟩ := ih (k - 1) r h
      exact ⟨by omega, h2⟩

/-- Helper: the first loop's inverse map has exactly the betas hit by
`conv` as keys. -/
theorem pass1_isSome_iff (conv : ℤ → ℤ) (k : ℤ) :
    (((pass1 conv).2 k).isSome = true) ↔ k ∈ alphaRange.map conv := by
  constructor
  · intro h
    rw [pass1_snd] at h
    unfold listToOpt at h
    by_cases hd : directs conv k = []
    · rw [if_pos hd] at h; cases h
    · obtain ⟨x, hx⟩ := List.exists_mem_of_ne_nil _ hd
      unfold directs at hx
      obtain ⟨α, hαf, rfl⟩ := List.mem_map.mp hx
      have hfk := List.mem_filter.mp hαf
      exact List.mem_map.mpr ⟨α, hfk.1, by simpa using hfk.2⟩
  · intro h
    obtain ⟨α, hα, rfl⟩ := List.mem_map.mp h
    rw [pass1_snd]
    unfold listToOpt
    rw [if_neg (List.ne_nil_of_mem (mem_directs conv α hα))]
    rfl

/-- Helper: every key of the inverse map lies between the extremes. -/
theorem key_bounds (conv : ℤ → ℤ) (k : ℤ) (hk : k ∈ alphaRange.map conv) :
    minKey conv ≤ k ∧ k ≤ maxKey conv :=
  ⟨foldl_min_le_mem _ _ _ hk, le_foldl_max_mem _ _ _ hk⟩

/-- Helper: the smallest observed beta is a key. -/
theorem minKey_isSome (conv : ℤ → ℤ) :
    (((pass1 conv).2 (minKey conv)).isSome = true) := by
  apply (pass1_isSome_iff conv _).mpr
  have hinit : conv (-16) ∈ alphaRange.map conv :=
    List.mem_map.mpr ⟨-16, (mem_intsFrom 62 (-16) (-16)).mpr (by omega), rfl⟩
  rcases foldl_min_mem (alphaRange.map conv) (conv (-16)) with h | h
  · unfold minKey; rw [h]; exact hinit
  · exact h

/-- Helper: the largest observed beta is a key. -/
theorem maxKey_isSome (conv : ℤ → ℤ) :
    (((pass1 conv).2 (maxKey conv)).isSome = true) := by
  apply (pass1_isSome_iff conv _).mpr
  have hinit : conv (-16) ∈ alphaRange.map conv :=
    List.mem_map.mpr ⟨-16, (mem_intsFrom 62 (-16) (-16)).mpr (by omega), rfl⟩
  rcases foldl_max_mem (alphaRange.map conv) (conv (-16)) with h | h
  · unfold maxKey; rw [h]; exact hinit
  · exact h

/-- Helper: direct entries of the inverse map are nonempty. -/
theorem pass1_some_ne_nil (conv : ℤ → ℤ) {k : ℤ} {l : List ℚ}
    (h : (pass1 conv).2 k = some l) : l ≠ [] := by
  rw [pass1_snd] at h
  unfold listToOpt at h
  by_cases hd : directs conv k = []
  · rw [if_pos hd] at h; cases h
  · rw [if_neg hd] at h
    injection h with h2
    exact h2 ▸ hd

/-- Helper: zipWith only depends on the pointwise behaviour of its
function. -/
theorem zipWith_congr_fun {α β γ : Type} {f₁ f₂ : α → β → γ}
    (h : ∀ a b, f₁ a b = f₂ a b) :
    ∀ (L : List α) (H : List β), List.zipWith f₁ L H = List.zipWith f₂ L H := by
  intro L
  induction L with
  | nil => intro H; simp
  | cons a L ih =>
    intro H
    cases H with
    | nil => simp
    | cons b H => simp [h, ih]

/-- Helper: the prescribed entry, when both neighbour scans succeed. -/
theorem specList_eq {g : ℤ → Option (List ℚ)} {minB maxB beta lo hi : ℤ}
    (hb : findBelow g (beta - 1) (beta - minB).toNat = some lo)
    (ha : findAbove g (beta + 1) (maxB - beta).toNat = some hi) :
    specList g minB maxB beta = specInterp g lo hi beta := by
  unfold specList
  rw [hb, ha]

/-- Helper: one interpolation step preserves the loop invariant and
advances the processed bound: a missing beta `p` gets exactly the
prescribed nearest-real-neighbour weighted average, transitively through
the already-interpolated `p − 1` when that neighbour is itself
interpolated. -/
theorem interpStep_inv2 (conv : ℤ → ℤ) (p : ℤ) (m : ℤ → Option (List ℚ))
    (hp1 : minKey conv ≤ p) (hp2 : p ≤ maxKey conv)
    (hinv : inv2 (pass1 conv).2 m (minKey conv) (maxKey conv) p) :
    inv2 (pass1 conv).2 (interpStep (minKey conv) (maxKey conv) m p)
      (minKey conv) (maxKey conv) (p + 1) := by
  obtain ⟨I1, I2, I3⟩ := hinv
  cases hgp : (pass1 conv).2 p with
  | some l =>
    have hm : interpStep (minKey conv) (maxKey conv) m p = m := by
      unfold interpStep
      rw [I1 p l hgp]
    rw [hm]
    refine ⟨I1, ?_, ?_⟩
    · intro k hk hk1 hk2
      by_cases hkp : k = p
      · exact Option.noConfusion (((hkp ▸ hk) : (pass1 conv).2 p = none).symm.trans hgp)
      · exact I2 k hk hk1 (by omega)
    · intro k hk hor
      apply I3 k hk
      rcases hor with h | h
      · exact Or.inl h
      · right
        by_cases hkp : k = p
        · exact Option.noConfusion (((hkp ▸ hk) : (pass1 conv).2 p = none).symm.trans hgp)
        · omega
  | none =>
    have hmp : m p = none := I3 p hgp (Or.inr (le_refl p))
    have hminSome := minKey_isSome conv
    have hmaxSome := maxKey_isSome conv
    have hpmin : minKey conv < p := by
      rcases eq_or_lt_of_le hp1 with h | h
      · have hx : ((pass1 conv).2 p).isSome = true := h ▸ hminSome
        simp [hgp] at hx
      · exact h
    have hpmax : p < maxKey conv := by
      rcases eq_or_lt_of_le hp2 with h | h
      · have hx : ((pass1 conv).2 p).isSome = true := h.symm ▸ hmaxSome
        simp [hgp] at hx
      · exact h
    have hagree : ∀ j, p + 1 ≤ j → (m j).isSome = ((pass1 conv).2 j).isSome := by
      intro j hj
      cases hgj : (pass1 conv).2 j with
      | some lj => simp [I1 j lj hgj]
      | none => simp [I3 j hgj (Or.inr (by omega))]
    have hbelowSome : (m (p - 1)).isSome = true := by
      cases hgp1 : (pass1 conv).2 (p - 1) with
      | some lj => simp [I1 (p - 1) lj hgp1]
      | none => simp [I2 (p - 1) hgp1 (by omega) (by omega)]
    have hbelow : findBelow m (p - 1) (p - minKey conv).toNat = some (p - 1) :=
      findBelow_hit _ hbelowSome (by omega)
    have habove0 : findAbove m (p + 1) (maxKey conv - p).toNat =
        findAbove (pass1 conv).2 (p + 1) (maxKey conv - p).toNat :=
      findAbove_congr _ _ (fun j hj _ => hagree j hj)
    obtain ⟨hi, hhi⟩ : ∃ r, findAbove (pass1 conv).2 (p + 1) (maxKey conv - p).toNat = some r :=
      findAbove_exists ((maxKey conv - p).toNat) (p + 1) (maxKey conv)
        (by omega) (by omega) hmaxSome
    obtain ⟨hhile, hhiSome⟩ := findAbove_some_props _ _ _ hhi
    obtain ⟨lhi, hlhi⟩ := Option.isSome_iff_exists.mp hhiSome
    have habove : findAbove m (p + 1) (maxKey conv - p).toNat = some hi := by
      rw [habove0, hhi]
    have hstep : interpStep (minKey conv) (maxKey conv) m p =
        updFun m p (List.zipWith (fun alpha_low alpha_high =>
          (((hi : ℚ) - (p : ℚ)) / ((hi : ℚ) - ((p - 1 : ℤ) : ℚ))) * alpha_low +
            (((p : ℚ) - ((p - 1 : ℤ) : ℚ)) / ((hi : ℚ) - ((p - 1 : ℤ) : ℚ))) * alpha_high)
          ((m (p - 1)).getD []) ((m hi).getD [])) := by
      unfold interpStep
      rw [hmp, hbelow, habove]
    have hvalue : (List.zipWith (fun alpha_low alpha_high =>
          (((hi : ℚ) - (p : ℚ)) / ((hi : ℚ) - ((p - 1 : ℤ) : ℚ))) * alpha_low +
            (((p : ℚ) - ((p - 1 : ℤ) : ℚ)) / ((hi : ℚ) - ((p - 1 : ℤ) : ℚ))) * alpha_high)
          ((m (p - 1)).getD []) ((m hi).getD [])) =
        specList (pass1 conv).2 (minKey conv) (maxKey conv) p := by
      cases hgp1 : (pass1 conv).2 (p - 1) with
      | some llo =>
        have hbg : findBelow (pass1 conv).2 (p - 1) (p - minKey conv).toNat = some (p - 1) :=
          findBelow_hit _ (by rw [hgp1]; rfl) (by omega)
        have hm1 : m (p - 1) = some llo := I1 _ _ hgp1
        have hm2 : m hi = some lhi := I1 _ _ hlhi
        rw [specList_eq hbg hhi, hm1, hm2]
        unfold specInterp
        rw [hgp1, hlhi]
      | none =>
        have hpmin1 : minKey conv < p - 1 := by
          rcases eq_or_lt_of_le (show minKey conv ≤ p - 1 by omega) with h | h
          · have hx : ((pass1 conv).2 (p - 1)).isSome = true := h ▸ hminSome
            simp [hgp1] at hx
          · exact h
        have hm1 : m (p - 1) =
            some (specList (pass1 conv).2 (minKey conv) (maxKey conv) (p - 1)) :=
          I2 (p - 1) hgp1 (by omega) (by omega)
        have hm2 : m hi = some lhi := I1 _ _ hlhi
        obtain ⟨lo, hlo⟩ : ∃ r,
            findBelow (pass1 conv).2 (p - 1 - 1) (p - 1 - minKey conv).toNat = some r :=
          findBelow_exists ((p - 1 - minKey conv).toNat) (p - 1 - 1) (minKey conv)
            (by omega) (by omega) hminSome
        obtain ⟨hlole, hloSome⟩ := findBelow_some_props _ _ _ hlo
        have hblwP : findBelow (pass1 conv).2 (p - 1) (p - minKey conv).toNat = some lo := by
          rw [show (p - minKey conv).toNat = (p - 1 - minKey conv).toNat + 1 from by omega,
            findBelow_skip _ hgp1]
          exact hlo
        have habvP1 : findAbove (pass1 conv).2 ((p - 1) + 1) (maxKey conv - (p - 1)).toNat =
            some hi := by
          rw [show (maxKey conv - (p - 1)).toNat = (maxKey conv - p).toNat + 1 from by omega]
          rw [show (p - 1) + 1 = p from by ring, findAbove_skip _ hgp]
          exact hhi
        have hsl1 : specList (pass1 conv).2 (minKey conv) (maxKey conv) (p - 1) =
            specInterp (pass1 conv).2 lo hi (p - 1) := specList_eq hlo habvP1
        have hslP : specList (pass1 conv).2 (minKey conv) (maxKey conv) p =
            specInterp (pass1 conv).2 lo hi p := specList_eq hblwP hhi
        rw [hm1, hm2, hsl1, hslP]
        unfold specInterp
        rw [hlhi]
        simp only [Option.getD_some]
        rw [zipWith_zipWith_same]
        have hd1 : ((hi : ℚ) - ((p - 1 : ℤ) : ℚ)) ≠ 0 := by
          have hle : (p : ℚ) + 1 ≤ (hi : ℚ) := by exact_mod_cast hhile
          push_cast
          intro hcontra
          linarith
        have hd2 : ((hi : ℚ) - ((lo : ℤ) : ℚ)) ≠ 0 := by
          have hle1 : (lo : ℚ) ≤ (p : ℚ) - 1 - 1 := by exact_mod_cast hlole
          have hle2 : (p : ℚ) + 1 ≤ (hi : ℚ) := by exact_mod_cast hhile
          intro hcontra
          linarith
        apply zipWith_congr_fun
        intro a b
        push_cast at hd1 hd2 ⊢
        field_simp
        ring
    refine ⟨?_, ?_, ?_⟩
    · intro k lk hk
      have hkp : k ≠ p := fun h => by rw [h, hgp] at hk; cases hk
      rw [hstep]
      unfold updFun
      rw [if_neg hkp]
      exact I1 k lk hk
    · intro k hk hk1 hk2
      by_cases hkp : k = p
      · subst hkp
        rw [hstep]
        unfold updFun
        rw [if_pos rfl, hvalue]
      · rw [hstep]
        unfold updFun
        rw [if_neg hkp]
        exact I2 k hk hk1 (by omega)
    · intro k hk hor
      have hkp : k ≠ p := by
        rcases hor with h | h
        · omega
        · omega
      rw [hstep]
      unfold updFun
      rw [if_neg hkp]
      apply I3 k hk
      rcases hor with h | h
      · exact Or.inl h
      · exact Or.inr (by omega)

/-- Helper: the invariant holds before the interpolation loop starts. -/
theorem inv2_start (conv : ℤ → ℤ) :
    inv2 (pass1 conv).2 (pass1 conv).2 (minKey conv) (maxKey conv) (minKey conv) :=
  ⟨fun _ _ h => h, fun k _ h1 h2 => absurd h2 (by omega), fun _ h _ => h⟩

/-- Helper: running the interpolation loop over a whole integer range
carries the invariant across the range. -/
theorem pass2_inv2 (conv : ℤ → ℤ) :
    ∀ (cnt : ℕ) (p : ℤ) (m : ℤ → Option (List ℚ)),
      minKey conv ≤ p → p + cnt = maxKey conv + 1 →
      inv2 (pass1 conv).2 m (minKey conv) (maxKey conv) p →
      inv2 (pass1 conv).2
        ((intsFrom p cnt).foldl (interpStep (minKey conv) (maxKey conv)) m)
        (minKey conv) (maxKey conv) (p + cnt) := by
  intro cnt
  induction cnt with
  | zero =>
    intro p m _ _ hinv
    simpa using hinv
  | succ n ih =>
    intro p m hp1 hp2 hinv
    rw [intsFrom, List.foldl_cons]
    have hstep := interpStep_inv2 conv p m hp1 (by omega) hinv
    have hrec := ih (p + 1) (interpStep (minKey conv) (maxKey conv) m p)
      (by omega) (by omega) hstep
    rw [show p + ((n + 1 : ℕ) : ℤ) = (p + 1) + (n : ℕ) from by push_cast; ring]
    exact hrec

/-- Helper: the invariant after the full interpolation loop. -/
theorem pass2_final_inv (conv : ℤ → ℤ) :
    inv2 (pass1 conv).2 (pass2 (minKey conv) (maxKey conv) (pass1 conv).2)
      (minKey conv) (maxKey conv) (maxKey conv + 1) := by
  have hmm : minKey conv ≤ maxKey conv :=
    le_trans (foldl_min_le_init _ _) (le_foldl_max_init _ _)
  have h := pass2_inv2 conv (maxKey conv + 1 - minKey conv).toNat (minKey conv)
    (pass1 conv).2 (le_refl _) (by omega) (inv2_start conv)
  unfold pass2
  rwa [show minKey conv + ((maxKey conv + 1 - minKey conv).toNat : ℤ) = maxKey conv + 1
    from by omega] at h

/-- C4: for every conversion function (in particular the code's
`ang_conv`), the inverse map returned by `alpha_beta_maps` has a
non-empty alpha list at every integer beta between the smallest and
largest observed beta keys.  A beta with no direct alpha preimage is
filled with the linear weighted average — paired index-for-index — of
the alpha lists of the nearest lower and nearest higher real beta keys
(`findBelow`/`findAbove` over the un-interpolated first-loop map), with
weights `(hi − β)/(hi − lo)` and `(β − lo)/(hi − lo)`. -/
theorem claim_C4 (conv : ℤ → ℤ) (β : ℤ)
    (h1 : minKey conv ≤ β) (h2 : β ≤ maxKey conv) :
    ∃ l, (alpha_beta_maps conv).2 β = some l ∧ l ≠ [] ∧
      ((pass1 conv).2 β = none →
        ∃ lo hi,
          findBelow (pass1 conv).2 (β - 1) (β - minKey conv).toNat = some lo ∧
          findAbove (pass1 conv).2 (β + 1) (maxKey conv - β).toNat = some hi ∧
          l = specInterp (pass1 conv).2 lo hi β) := by
  obtain ⟨I1, I2, I3⟩ := pass2_final_inv conv
  have hmaps : (alpha_beta_maps conv).2 =
      pass2 (minKey conv) (maxKey conv) (pass1 conv).2 := rfl
  have hminSome := minKey_isSome conv
  have hmaxSome := maxKey_isSome conv
  cases hgb : (pass1 conv).2 β with
  | some l =>
    refine ⟨l, ?_, pass1_some_ne_nil conv hgb, ?_⟩
    · rw [hmaps]; exact I1 β l hgb
    · intro hcontra
      exact Option.noConfusion hcontra
  | none =>
    have hβmin : minKey conv < β := by
      rcases eq_or_lt_of_le h1 with h | h
      · have hx : ((pass1 conv).2 β).isSome = true := h ▸ hminSome
        simp [hgb] at hx
      · exact h
    have hβmax : β < maxKey conv := by
      rcases eq_or_lt_of_le h2 with h | h
      · have hx : ((pass1 conv).2 β).isSome = true := h.symm ▸ hmaxSome
        simp [hgb] at hx
      · exact h
    obtain ⟨lo, hlo⟩ : ∃ r,
        findBelow (pass1 conv).2 (β - 1) (β - minKey conv).toNat = some r :=
      findBelow_exists ((β - minKey conv).toNat) (β - 1) (minKey conv)
        (by omega) (by omega) hminSome
    obtain ⟨hi, hhi⟩ : ∃ r,
        findAbove (pass1 conv).2 (β + 1) (maxKey conv - β).toNat = some r :=
      findAbove_exists ((maxKey conv - β).toNat) (β + 1) (maxKey conv)
        (by omega) (by omega) hmaxSome
    obtain ⟨hlole, hloSome⟩ := findBelow_some_props _ _ _ hlo
    obtain ⟨hhile, hhiSome⟩ := findAbove_some_props _ _ _ hhi
    obtain ⟨llo, hllo⟩ := Option.isSome_iff_exists.mp hloSome
    obtain ⟨lhi, hlhi⟩ := Option.isSome_iff_exists.mp hhiSome
    have hfin : pass2 (minKey conv) (maxKey conv) (pass1 conv).2 β =
        some (specList (pass1 conv).2 (minKey conv) (maxKey conv) β) :=
      I2 β hgb h1 (by omega)
    have hsl : specList (pass1 conv).2 (minKey conv) (maxKey conv) β =
        specInterp (pass1 conv).2 lo hi β := specList_eq hlo hhi
    refine ⟨specList (pass1 conv).2 (minKey conv) (maxKey conv) β,
      by rw [hmaps]; exact hfin, ?_, fun _ => ⟨lo, hi, hlo, hhi, hsl⟩⟩
    rw [hsl]
    unfold specInterp
    rw [hllo, hlhi]
    simp only [Option.getD_some]
    exact zipWith_ne_nil _ (pass1_some_ne_nil conv hllo) (pass1_some_ne_nil conv hlhi)

/-- Witness for C4 with the doubling conversion (whose beta keys are the
even integers, so every odd beta in range is interpolated), at the
missing beta −31. -/
theorem claim_C4_witness :
    ∃ l, (alpha_beta_maps (fun a => 2 * a)).2 (-31) = some l ∧ l ≠ [] ∧
      ((pass1 (fun a => 2 * a)).2 (-31) = none →
        ∃ lo hi,
          findBelow (pass1 (fun a => 2 * a)).2 (-31 - 1)
            (-31 - minKey (fun a => 2 * a)).toNat = some lo ∧
          findAbove (pass1 (fun a => 2 * a)).2 (-31 + 1)
            (maxKey (fun a => 2 * a) - (-31)).toNat = some hi ∧
          l = specInterp (pass1 (fun a => 2 * a)).2 lo hi (-31)) :=
  claim_C4 (fun a => 2 * a) (-31) (by set_option maxRecDepth 4000 in decide)
    (by set_option maxRecDepth 4000 in decide)

/-- Helper: the root computed by `ang_conv`'s quadratic solve lies in
[−1, 1] whenever its ingredients satisfy the (concretely instantiated)
bounds.  The disc ≥ 0 branch bounds the larger quadratic root via
`p(±1)·D = (A ± (BS−C)/2)² ≥ 0`; the clamped branch returns `−E/2` with
`|E| ≤ 2`. -/
theorem rootAux_bounds {BS C D E F disc : ℝ} (A B : ℝ)
    (hBS : BS = B ^ 2)
    (hC : C = 24003/961)
    (hD : D = A ^ 2 + BS)
    (hE : E = A * (BS - C) / D)
    (hF : F = (0.25 * ((BS - C) ^ 2) - BS) / D)
    (hdisc : disc = E ^ 2 - 4 * F)
    (hA1 : -(1007/1000 : ℝ) ≤ A) (hA2 : A ≤ 0)
    (hBS1 : (10983/1000 : ℝ) ≤ BS) (hBS2 : BS ≤ (3887/100 : ℝ)) :
    -1 ≤ (-E + Real.sqrt (if disc < 0 then 0 else disc)) / 2 ∧
      (-E + Real.sqrt (if disc < 0 then 0 else disc)) / 2 ≤ 1 := by
  have hD0 : (0:ℝ) < D := by rw [hD]; nlinarith [sq_nonneg A]
  have hX1 : BS - C ≤ 14 := by rw [hC]; linarith
  have hX2 : (-14 : ℝ) ≤ BS - C := by rw [hC]; linarith
  have hEb1 : E ≤ 2 := by
    rw [hE, div_le_iff hD0]
    nlinarith [mul_nonneg (neg_nonneg.mpr hA2) (by linarith : (0:ℝ) ≤ (BS - C) + 14),
      sq_nonneg A]
  have hEb2 : -2 ≤ E := by
    rw [hE, le_div_iff hD0]
    nlinarith [mul_nonneg (neg_nonneg.mpr hA2) (by linarith : (0:ℝ) ≤ 14 - (BS - C)),
      sq_nonneg A]
  have hp1 : 0 ≤ 1 + E + F := by
    have key : 1 + E + F = (A + (BS - C)/2)^2 / D := by
      rw [hE, hF, hD]
      field_simp
      ring
    rw [key]
    positivity
  by_cases hneg : disc < 0
  · rw [if_pos hneg, Real.sqrt_zero]
    constructor <;> linarith
  · rw [if_neg hneg]
    push_neg at hneg
    have hs0 : 0 ≤ Real.sqrt disc := Real.sqrt_nonneg _
    have hup : Real.sqrt disc ≤ E + 2 := by
      have hle : disc ≤ (E + 2)^2 := by
        rw [hdisc]
        nlinarith
      calc Real.sqrt disc ≤ Real.sqrt ((E + 2)^2) := Real.sqrt_le_sqrt hle
        _ = |E + 2| := Real.sqrt_sq_eq_abs _
        _ = E + 2 := abs_of_nonneg (by linarith)
    constructor
    · linarith
    · linarith

/-- Helper: the acos argument of `ang_conv` lies in [−1, 1] for every
cosine value in [0.707, 1] and sine value in [−0.7072, 0.7072] — the
ranges attained on alpha ∈ [−45°, 45°]. -/
theorem rootCS_bounds (c s : ℝ) (hc1 : (707/1000 : ℝ) ≤ c) (hc2 : c ≤ 1)
    (hs1 : -(7072/10000 : ℝ) ≤ s) (hs2 : s ≤ (7072/10000 : ℝ)) :
    -1 ≤ rootCS c s ∧ rootCS c s ≤ 1 := by
  have hl1 : (Config.l1 : ℝ) = 37/5 := by norm_num [Config.l1]
  have hl2 : (Config.l2 : ℝ) = 41/25 := by norm_num [Config.l2]
  have hl3 : (Config.l3 : ℝ) = 31/20 := by norm_num [Config.l3]
  have hl4 : (Config.l4 : ℝ) = 79/10 := by norm_num [Config.l4]
  have hl5 : (Config.l5 : ℝ) = 16/5 := by norm_num [Config.l5]
  refine rootAux_bounds
    (((Config.l2 : ℝ) - (Config.l5 : ℝ) * c) / (Config.l3 : ℝ))
    (-1 * ((Config.l1 : ℝ) + (Config.l5 : ℝ) * s) / (Config.l3 : ℝ))
    rfl ?_ rfl rfl rfl rfl ?_ ?_ ?_ ?_
  · rw [hl3, hl4]
    norm_num
  · rw [hl2, hl3, hl5]
    rw [show ((41:ℝ)/25 - 16/5 * c) / (31/20) = 164/155 - 64/31 * c from by ring]
    linarith
  · rw [hl2, hl3, hl5]
    rw [show ((41:ℝ)/25 - 16/5 * c) / (31/20) = 164/155 - 64/31 * c from by ring]
    linarith
  · rw [hl1, hl3, hl5]
    rw [show (-1 * ((37:ℝ)/5 + 16/5 * s) / (31/20))^2 = (148/31 + 64/31 * s)^2 from by ring]
    nlinarith [sq_nonneg ((148:ℝ)/31 + 64/31 * s - 64212/19375)]
  · rw [hl1, hl3, hl5]
    rw [show (-1 * ((37:ℝ)/5 + 16/5 * s) / (31/20))^2 = (148/31 + 64/31 * s)^2 from by ring]
    nlinarith [mul_nonneg (show (0:ℝ) ≤ 148/31 + 64/31 * s by linarith)
      (show (0:ℝ) ≤ 1932608/310000 - (148/31 + 64/31 * s) by linarith)]

/-- C5: for every integer alpha in [−16, 45] under the configured
linkage constants, the argument `ang_conv` hands to `math.acos` lies in
[−1, 1] (so the Python call cannot raise), the negative-discriminant
case being clamped to 0 before the square root inside `rootCS`; the
(total, deterministic, side-effect-free) function therefore always
returns an integer beta. -/
theorem claim_C5 (a : ℤ) (h1 : -16 ≤ a) (h2 : a ≤ 45) :
    -1 ≤ acosArg (a : ℝ) ∧ acosArg (a : ℝ) ≤ 1 := by
  have hπ := Real.pi_pos
  have h45 : |(a : ℝ)| ≤ 45 := by
    rw [abs_le]
    constructor
    · exact_mod_cast (show (-45 : ℤ) ≤ a by omega)
    · exact_mod_cast h2
  have hxabs : |(a : ℝ) * Real.pi / 180| ≤ Real.pi / 4 := by
    rw [abs_div, abs_mul, abs_of_pos hπ, abs_of_pos (show (0:ℝ) < 180 by norm_num)]
    calc |(a : ℝ)| * Real.pi / 180 ≤ 45 * Real.pi / 180 := by
          have := mul_le_mul_of_nonneg_right h45 (le_of_lt hπ)
          linarith
      _ = Real.pi / 4 := by ring
  have habs := abs_le.mp hxabs
  have hcoslb : Real.cos (Real.pi/4) ≤ Real.cos ((a : ℝ) * Real.pi / 180) := by
    rw [← Real.cos_abs ((a : ℝ) * Real.pi / 180)]
    exact Real.cos_le_cos_of_nonneg_of_le_pi (abs_nonneg _) (by linarith) hxabs
  have hcosub : Real.cos ((a : ℝ) * Real.pi / 180) ≤ 1 := Real.cos_le_one _
  have hmem1 : (a : ℝ) * Real.pi / 180 ∈ Set.Icc (-(Real.pi/2)) (Real.pi/2) :=
    ⟨by linarith [habs.1], by linarith [habs.2]⟩
  have hmem2 : Real.pi/4 ∈ Set.Icc (-(Real.pi/2)) (Real.pi/2) := ⟨by linarith, by linarith⟩
  have hmem3 : -(Real.pi/4) ∈ Set.Icc (-(Real.pi/2)) (Real.pi/2) := ⟨by linarith, by linarith⟩
  have hsinub : Real.sin ((a : ℝ) * Real.pi / 180) ≤ Real.sin (Real.pi/4) :=
    Real.strictMonoOn_sin.monotoneOn hmem1 hmem2 habs.2
  have hsinlb : Real.sin (-(Real.pi/4)) ≤ Real.sin ((a : ℝ) * Real.pi / 180) :=
    Real.strictMonoOn_sin.monotoneOn hmem3 hmem1 habs.1
  have hs2 := Real.sq_sqrt (show (0:ℝ) ≤ 2 by norm_num)
  have hs2nn := Real.sqrt_nonneg 2
  have hsqrt_lo : (1414/1000 : ℝ) ≤ Real.sqrt 2 := by nlinarith
  have hsqrt_hi : Real.sqrt 2 ≤ (14143/10000 : ℝ) := by nlinarith
  apply rootCS_bounds
  · rw [Real.cos_pi_div_four] at hcoslb
    linarith
  · exact hcosub
  · rw [Real.sin_neg, Real.sin_pi_div_four] at hsinlb
    linarith
  · rw [Real.sin_pi_div_four] at hsinub
    linarith

/-- Witness for C5 at alpha = 0. -/
theorem claim_C5_witness :
    -1 ≤ acosArg ((0 : ℤ) : ℝ) ∧ acosArg ((0 : ℤ) : ℝ) ≤ 1 :=
  claim_C5 0 (by norm_num) (by norm_num)

/-- Helper: the success path of `final_pitch_aim` is reachable: at
naive angle 0° and apparent height 1000 px the ballistic correction
returns a real angle (the discriminant is positive and the solved angle
is below 45°), and on that input `final_pitch_aim` returns Python's
implicit `None` rather than a `True` success indicator. -/
theorem final_pitch_aim_success_reachable :
    ∃ r, real_alpha_calc_balistics [(0 : ℝ)] 1000 = some r ∧
      (final_pitch_aim (fun _ => 0) (fun _ => [(0 : ℝ)]) 65 1000).1 = none := by
  have hπ1 : (3.14 : ℝ) < Real.pi := Real.pi_gt_314
  have hπ2 : Real.pi < 3.15 := Real.pi_lt_315
  have hFOV : (Config.FOV_deg : ℝ) = 167/10 := by norm_num [Config.FOV_deg]
  have hG : (Config.GRAVITY_CONSTANT : ℝ) = 981/100 := by norm_num [Config.GRAVITY_CONSTANT]
  have hRD : (Config.REAL_DOVE_HEIGHT : ℝ) = 1/5 := by norm_num [Config.REAL_DOVE_HEIGHT]
  have hHP : (Config.HEIGHT_PIXEL : ℝ) = 360 := by norm_num [Config.HEIGHT_PIXEL]
  have hV : (Config.INITIAL_V : ℝ) = 26/5 := by norm_num [Config.INITIAL_V]
  have hθpos : (0 : ℝ) < (Config.FOV_deg : ℝ) * Real.pi / 180 / 2 := by
    rw [hFOV]; nlinarith
  have hθlo : (1456/10000 : ℝ) < (Config.FOV_deg : ℝ) * Real.pi / 180 / 2 := by
    rw [hFOV]; nlinarith
  have hθhalf : (Config.FOV_deg : ℝ) * Real.pi / 180 / 2 < Real.pi / 2 := by
    rw [hFOV]; nlinarith
  have htpos : 0 < Real.tan ((Config.FOV_deg : ℝ) * Real.pi / 180 / 2) :=
    Real.tan_pos_of_pos_of_lt_pi_div_two hθpos hθhalf
  have htlo : (1456/10000 : ℝ) < Real.tan ((Config.FOV_deg : ℝ) * Real.pi / 180 / 2) :=
    lt_trans hθlo (Real.lt_tan hθpos hθhalf)
  have hEeq : balE 1000 =
      (1765800/135200000 : ℝ) / Real.tan ((Config.FOV_deg : ℝ) * Real.pi / 180 / 2) := by
    show ((Config.GRAVITY_CONSTANT : ℝ) *
        (((Config.REAL_DOVE_HEIGHT : ℝ) * (Config.HEIGHT_PIXEL : ℝ)) /
          (2 * 1000 * Real.tan (((Config.FOV_deg : ℝ) * Real.pi / 180) / 2)))) /
        ((Config.INITIAL_V : ℝ) ^ 2) = _
    rw [hG, hRD, hHP, hV]
    field_simp
    ring
  have hE0 : 0 < balE 1000 := by
    rw [hEeq]
    exact div_pos (by norm_num) htpos
  have hE1 : balE 1000 ≤ 1/10 := by
    rw [hEeq, div_le_iff htpos]
    nlinarith [htlo]
  have hmin0 : listMin [(0 : ℝ)] = 0 := rfl
  have halpha : listMin [(0 : ℝ)] * Real.pi / 180 = 0 := by rw [hmin0]; ring
  have hdisval : balDis 0 1000 = 1 - (balE 1000)^2 := by
    unfold balDis
    rw [Real.sin_zero, Real.cos_zero]
    ring
  have hdisnn : 0 ≤ balDis (listMin [(0 : ℝ)] * Real.pi / 180) 1000 := by
    rw [halpha, hdisval]
    nlinarith [hE0, hE1]
  have hangle : balAngle (listMin [(0 : ℝ)] * Real.pi / 180) 1000 ≤ 45 := by
    rw [halpha]
    unfold balAngle
    rw [Real.cos_zero, mul_one]
    have hsq : 1 - balE 1000 ≤ Real.sqrt (balDis 0 1000) := by
      have h1 : (1 - balE 1000)^2 ≤ balDis 0 1000 := by
        rw [hdisval]
        nlinarith [hE0, hE1]
      have h2 := Real.sqrt_le_sqrt h1
      rwa [Real.sqrt_sq_eq_abs,
        abs_of_nonneg (by linarith : (0:ℝ) ≤ 1 - balE 1000)] at h2
    have hy1 : (1 - Real.sqrt (balDis 0 1000)) / balE 1000 ≤ 1 := by
      rw [div_le_one hE0]
      linarith
    have harct : Real.arctan ((1 - Real.sqrt (balDis 0 1000)) / balE 1000) ≤ Real.pi / 4 :=
      le_trans (Real.arctan_strictMono.monotone hy1) (le_of_eq Real.arctan_one)
    calc Real.arctan ((1 - Real.sqrt (balDis 0 1000)) / balE 1000) * 180 / Real.pi
        ≤ (Real.pi / 4) * 180 / Real.pi := by
          gcongr
      _ = 45 := by field_simp; ring
  have hres : real_alpha_calc_balistics [(0 : ℝ)] 1000 =
      some (balAngle (listMin [(0 : ℝ)] * Real.pi / 180) 1000) := by
    unfold real_alpha_calc_balistics
    rw [if_neg (not_lt.mpr hdisnn), if_neg (not_lt.mpr hangle)]
  refine ⟨balAngle (listMin [(0 : ℝ)] * Real.pi / 180) 1000, hres, ?_⟩
  simp only [final_pitch_aim]
  rw [hres]
